import Mathlib

/-!
Shallow embedding of the `exchangeratesapi_example` repository
(`src/main.rs`, `src/types.rs`, `src/utils.rs`) and proofs of the behavioral
claims about its aggregation function `exchange_rate_overview` and its
cache-then-network rate provider `get_exchange_rate`.

Modelling conventions:
* `chrono::NaiveDate` is modelled as an integer day number (days since
  1970-01-01, which was a Thursday); `daysFromCivil` converts a calendar
  date to this day number with the standard civil-calendar algorithm, and
  the weekday of day `z` is determined by `z % 7` (`0` = Thursday, so
  `2` = Saturday and `3` = Sunday).
* `f64` rate values are modelled at two levels.  The structural embedding
  (`exchange_rate_overview`) idealizes `f64` as exact rationals `ℚ`,
  preserving the accumulation order of the source (left fold in ascending
  date order); this is faithful for counters, comparisons of stored values,
  strings and control flow, but not for rounding.  The bit-exact embedding
  (`exchange_rate_overview64`, built on `roundQ`) rounds after every
  arithmetic operation exactly as IEEE-754 binary64 does (round to nearest,
  ties to even), and is used for the two claims whose truth depends on
  rounding: the 5% threshold comparison and the constant-provider mean.
* `Result<T, String>` is modelled as `Except String T`.
* The `.unwrap()` calls on `min_rate`/`max_rate` (which can panic in Rust)
  are modelled by a `match` whose impossible fallthrough returns a
  distinguished error value.
-/

namespace ExchangeRates

/- Batteries marks the rational-number operations `@[irreducible]`; restore
the default transparency so that concrete runs of the embedded functions
evaluate (the kernel is unaffected by reducibility attributes). -/
attribute [local semireducible] Rat.mul Rat.add Rat.sub Rat.inv

set_option maxRecDepth 100000

instance {ε α : Type} [DecidableEq ε] [DecidableEq α] : DecidableEq (Except ε α) := fun x y =>
  match x, y with
  | .ok a, .ok b =>
      if h : a = b then .isTrue (by rw [h]) else .isFalse (fun hh => by cases hh; exact h rfl)
  | .ok _, .error _ => .isFalse (fun hh => by cases hh)
  | .error _, .ok _ => .isFalse (fun hh => by cases hh)
  | .error e, .error f =>
      if h : e = f then .isTrue (by rw [h]) else .isFalse (fun hh => by cases hh; exact h rfl)

/-- Day number of the civil date `y-m-d` (Gregorian calendar, `y ≥ 1`),
days since 1970-01-01.  Standard days-from-civil computation. -/
def daysFromCivil (y m d : Nat) : Int :=
  let y' : Nat := if m ≤ 2 then y - 1 else y
  let era : Nat := y' / 400
  let yoe : Nat := y' - era * 400
  let doy : Nat := (153 * (if m > 2 then m - 3 else m + 9) + 2) / 5 + d - 1
  let doe : Nat := yoe * 365 + yoe / 4 - yoe / 100 + doy
  (era * 146097 + doe : Int) - 719468

/-- `true` exactly when the day is a Saturday or a Sunday
(`processed_date.weekday()` matching `Sat | Sun` in the source). -/
def isWeekend (d : Int) : Bool :=
  d % 7 == 2 || d % 7 == 3

/-- The command-line options structure `Opt` from `src/types.rs`. -/
structure Opt where
  currency_from : String
  currency_to : String
  date_from : Int
  date_to : Int

/-- The `ExchangeValue` result structure from `src/types.rs`. -/
structure ExchangeValue where
  mean_rate : ℚ
  min_rate : ℚ × Int
  max_rate : ℚ × Int
  notice : Option String
deriving DecidableEq, Repr

/-- `ExchangeResult` from `src/types.rs`: `Result<ExchangeValue, String>`. -/
abbrev ExchangeResult := Except String ExchangeValue

/-- `ExchangeProvider` from `src/types.rs`: a rate lookup capability. -/
abbrev ExchangeProvider := String → String → Int → Except String ℚ

/-- `ACCEPTABLE_RETRIEVAL_FAILURE_FRACTION` from `src/main.rs`, read as the
exact rational 1/20 (the idealized embedding).  The `f64` literal `0.05` the
program actually stores is the nearest double, slightly above 1/20; that
value is `ACCEPTABLE_RETRIEVAL_FAILURE_FRACTION64` below and is what the
bit-exact embedding compares against. -/
def ACCEPTABLE_RETRIEVAL_FAILURE_FRACTION : ℚ := 5 / 100

/-- Error message for identical currencies (`src/main.rs` line 109). -/
def sameCurrencyMsg : String := "You have to pick two different currencies"

/-- Error message for misordered dates (`src/main.rs` line 114). -/
def dateOrderMsg : String := "date_from must precede or be equal to date_to"

/-- Error message when no rate could be retrieved (`src/main.rs` line 163). -/
def noDataMsg : String :=
  "Could not retrieve even 1 rate. Perhaps pick a date range with more working days."

/-- Error message when the failure budget is exceeded (`src/main.rs` line 167);
the formatted threshold constant `0.05` is inlined. -/
def thresholdMsg : String :=
  "Failure rate exceeded acceptable threshold (0.05)"

/-- The user notice built at `src/main.rs` line 178. -/
def noticeMsg (failed total : Nat) : String :=
  "we failed to retrieve " ++ toString failed ++ " of " ++ toString total ++ " rates"

/-- The mutable state of the aggregation loop in `exchange_rate_overview`:
`expected_days`, `retrieved_days`, `rate_sum`, `max_rate`, `min_rate`. -/
structure AggState where
  expected_days : Nat
  retrieved_days : Nat
  rate_sum : ℚ
  max_rate : Option (ℚ × Int)
  min_rate : Option (ℚ × Int)
deriving DecidableEq, Repr

/-- The initial loop state of `exchange_rate_overview`. -/
def initState : AggState := ⟨0, 0, 0, none, none⟩

/-- The `max_rate` update of the source: replace only on strict increase. -/
def updateMax (value : ℚ) (date : Int) : Option (ℚ × Int) → Option (ℚ × Int)
  | some v => if value > v.1 then some (value, date) else some v
  | none => some (value, date)

/-- The `min_rate` update of the source: replace only on strict decrease. -/
def updateMin (value : ℚ) (date : Int) : Option (ℚ × Int) → Option (ℚ × Int)
  | some v => if value < v.1 then some (value, date) else some v
  | none => some (value, date)

/-- One iteration of the `while` loop body of `exchange_rate_overview` for the
day `date`: skip weekends; otherwise count the day as expected, consult the
provider once, and on success update the running sum and the min/max tracking.
The sum uses exact rational addition (the idealization); `processDay64` is
the bit-exact variant whose sum rounds after every addition as `f64` does. -/
def processDay (provider : ExchangeProvider) (cf ct : String) (date : Int)
    (s : AggState) : AggState :=
  if isWeekend date then s
  else
    match provider cf ct date with
    | .ok value =>
        { expected_days := s.expected_days + 1
          retrieved_days := s.retrieved_days + 1
          rate_sum := s.rate_sum + value
          max_rate := updateMax value date s.max_rate
          min_rate := updateMin value date s.min_rate }
    | .error _ =>
        { s with expected_days := s.expected_days + 1 }

/-- The `while` loop of `exchange_rate_overview`, starting at day `d` and
running for `n` iterations (the source loop runs once per calendar day from
`date_from` to `date_to` inclusive). -/
def loopGo (provider : ExchangeProvider) (cf ct : String) :
    Int → Nat → AggState → AggState
  | _, 0, s => s
  | d, n + 1, s => loopGo provider cf ct (d + 1) n (processDay provider cf ct d s)

/-- Number of iterations of the source loop: calendar days from `date_from`
to `date_to` inclusive (`0` when the range is empty). -/
def numDays (opt : Opt) : Nat := (opt.date_to - opt.date_from + 1).toNat

/-- Rust's `str::to_lowercase`, modelled characterwise via `Char.toLower`
(the currency codes compared in the source are ASCII). -/
def toLowercase (s : String) : String := ⟨s.data.map Char.toLower⟩

/-- The state of the aggregation loop of `exchange_rate_overview` after
processing the whole range. -/
def finalState (opt : Opt) (provider : ExchangeProvider) : AggState :=
  loopGo provider opt.currency_from opt.currency_to opt.date_from (numDays opt) initState

/-- The function `exchange_rate_overview` from `src/main.rs` (lines 107-181),
with `f64` arithmetic idealized as exact rationals.  Control flow, counters,
comparisons of stored rate values, and all strings are bit-faithful; the
running sum, the mean and the failure-fraction test are exact where the
program rounds.  `exchange_rate_overview64` is the bit-exact variant used
for the rounding-sensitive claims. -/
def exchange_rate_overview (opt : Opt) (provider : ExchangeProvider) : ExchangeResult :=
  if toLowercase opt.currency_from = toLowercase opt.currency_to then
    .error sameCurrencyMsg
  else if opt.date_to - opt.date_from < 0 then
    .error dateOrderMsg
  else
    let s := finalState opt provider
    if s.expected_days = 0 ∨ s.retrieved_days = 0 then
      .error noDataMsg
    else if 1 - ((s.retrieved_days : ℚ) / (s.expected_days : ℚ)) >
        ACCEPTABLE_RETRIEVAL_FAILURE_FRACTION then
      .error thresholdMsg
    else
      match s.min_rate, s.max_rate with
      | some mn, some mx =>
          .ok { mean_rate := s.rate_sum / (s.retrieved_days : ℚ)
                min_rate := mn
                max_rate := mx
                notice :=
                  if s.expected_days = s.retrieved_days then none
                  else some (noticeMsg (s.expected_days - s.retrieved_days) s.expected_days) }
      | _, _ => .error "panic: unwrap on None"

/-! ### Specification-side characterizations of the loop

`visitedDates` lists the calendar days the loop iterates over, in ascending
order; `callDates` the business days among them (the days on which the
provider is consulted); `retrievedSamples` the (rate, date) pairs of the
successful lookups, in ascending date order. -/

/-- The calendar days visited by the source loop: `n` consecutive days
starting at `d`, in ascending order. -/
def visitedDates : Int → Nat → List Int
  | _, 0 => []
  | d, n + 1 => d :: visitedDates (d + 1) n

/-- The business days (non-weekend days) among the visited days. -/
def callDates (d : Int) (n : Nat) : List Int :=
  (visitedDates d n).filter (fun x => !isWeekend x)

/-- The sample the loop obtains for business day `day`: the provider's
value paired with the date on success, nothing on failure. -/
def sampleOf (provider : ExchangeProvider) (cf ct : String) (day : Int) :
    Option (ℚ × Int) :=
  match provider cf ct day with
  | .ok v => some (v, day)
  | .error _ => none

/-- The successfully retrieved samples, in ascending date order. -/
def retrievedSamples (provider : ExchangeProvider) (cf ct : String)
    (d : Int) (n : Nat) : List (ℚ × Int) :=
  (callDates d n).filterMap (sampleOf provider cf ct)

/-- The samples retrieved by a full run of `exchange_rate_overview`. -/
def runSamples (opt : Opt) (p : ExchangeProvider) : List (ℚ × Int) :=
  retrievedSamples p opt.currency_from opt.currency_to opt.date_from (numDays opt)

/-- The business days of a full run of `exchange_rate_overview`. -/
def runCallDates (opt : Opt) : List Int :=
  callDates opt.date_from (numDays opt)

/-- Two-sample version of the source's `min_rate` update. -/
def minOf2 (cur q : ℚ × Int) : ℚ × Int := if q.1 < cur.1 then q else cur

/-- Two-sample version of the source's `max_rate` update. -/
def maxOf2 (cur q : ℚ × Int) : ℚ × Int := if q.1 > cur.1 then q else cur

/-- The trace of provider invocations performed by the source loop over `n`
days starting at `d`: each iteration invokes the provider exactly once, with
the iteration's date, unless the date is a weekend (in which case the whole
provider branch is skipped). -/
def loopCalls : Int → Nat → List Int
  | _, 0 => []
  | d, n + 1 => (if isWeekend d then [] else [d]) ++ loopCalls (d + 1) n

/-! ### The cache-then-network rate provider `get_exchange_rate`

The cache is the set of local `{from}_{to}_{date}.cached` files, keyed by
(currency_from, currency_to, date); `%F`-formatted dates are distinct for
distinct dates, so the key is modelled as the triple itself.  The content of
a cache file is what parsing it yields: `Except.ok v` for a file holding the
decimal text of `v` (Rust's `f64::to_string`/`parse` round-trip is exact, so
the text is modelled by its value), `Except.error` for a corrupt file. -/

/-- A cache key: (currency_from, currency_to, date). -/
abbrev CacheKey := String × String × Int

/-- The local cache-file state: the parse result of the file for a key, or
`none` when no such file exists. -/
abbrev Cache := CacheKey → Option (Except String ℚ)

/-- The outcome of one `get_exchange_rate` call: the returned
`Result<f64, String>`, the cache-file state after the call, and whether the
call issued a network request. -/
structure FetchOutcome where
  result : Except String ℚ
  cache : Cache
  networkUsed : Bool

/-- The function `get_exchange_rate` from `src/main.rs` (lines 45-101).
If the cache file for the key exists, return its parsed content without any
network request (a corrupt file is a hard error, not a re-fetch).  Otherwise
issue the network request (modelled by `net`); on success persist the value
to the cache file before returning it. -/
def get_exchange_rate (net : CacheKey → Except String ℚ) (cache : Cache)
    (k : CacheKey) : FetchOutcome :=
  match cache k with
  | some (.ok value) => ⟨.ok value, cache, false⟩
  | some (.error _) => ⟨.error "cannot parse cached rate value", cache, false⟩
  | none =>
    match net k with
    | .ok rate_value =>
        ⟨.ok rate_value, fun x => if x = k then some (.ok rate_value) else cache x, true⟩
    | .error e => ⟨.error e, cache, true⟩

/-! ### Bit-exact IEEE-754 binary64 arithmetic

The aggregation above idealizes `f64` as exact rationals; that is faithful
for the structural claims (counters, comparisons, strings, control flow and
the order of operations) but not for the two claims that depend on rounding.
For those, the following model represents a finite double by its exact
rational value and rounds after every arithmetic operation: round to
nearest, ties to even, 53-bit significand, unbounded exponent.  This
coincides with IEEE-754 binary64 wherever no overflow and no subnormals
occur, which covers every value arising in the claims below. -/

/-- Fuel-driven floor of the base-2 logarithm (structural recursion, so
concrete values reduce in the kernel). -/
def natLog2Aux : Nat → Nat → Nat
  | 0, _ => 0
  | fuel + 1, n => if n < 2 then 0 else natLog2Aux fuel (n / 2) + 1

/-- `natLog2 n = ⌊log₂ n⌋` for `n ≥ 1`. -/
def natLog2 (n : Nat) : Nat := natLog2Aux n n

/-- `⌊log₂ (a / b)⌋` for positive naturals `a`, `b`. -/
def floorLog2 (a b : Nat) : Int :=
  let lga := natLog2 a
  let lgb := natLog2 b
  if b * 2 ^ lga ≤ a * 2 ^ lgb then (lga : Int) - lgb else (lga : Int) - lgb - 1

/-- Round the nonnegative fraction `a / b` to the nearest integer, ties to
even. -/
def roundMantissa (a b : Nat) : Nat :=
  let n := a / b
  let r := a % b
  if 2 * r < b then n
  else if b < 2 * r then n + 1
  else if n % 2 = 0 then n else n + 1

/-- Round a positive rational to the nearest double (by value): scale into
the significand range `[2^52, 2^53)`, round to the nearest 53-bit
significand (ties to even), and scale back. -/
def roundPosQ (q : ℚ) : ℚ :=
  let a := q.num.toNat
  let b := q.den
  let e := floorLog2 a b
  if 52 ≤ e then
    let k := (e - 52).toNat
    (roundMantissa a (b * 2 ^ k) : ℚ) * 2 ^ k
  else
    let k := (52 - e).toNat
    (roundMantissa (a * 2 ^ k) b : ℚ) / 2 ^ k

/-- Round any rational to the nearest double value (ties to even). -/
def roundQ (q : ℚ) : ℚ :=
  if q = 0 then 0
  else if 0 < q then roundPosQ q
  else -(roundPosQ (-q))

/-- `f64` addition: exact sum, then rounding. -/
def addF64 (x y : ℚ) : ℚ := roundQ (x + y)

/-- `f64` subtraction: exact difference, then rounding. -/
def subF64 (x y : ℚ) : ℚ := roundQ (x - y)

/-- `f64` division: exact quotient, then rounding. -/
def divF64 (x y : ℚ) : ℚ := roundQ (x / y)

/-- The `as f64` cast of a natural-number counter (exact below `2^53`). -/
def toF64 (n : Nat) : ℚ := roundQ n

/-- The value of the `f64` literal `0.05` the source actually compares
against: the nearest double, ≈ 0.05000000000000000278, slightly above
1/20. -/
def ACCEPTABLE_RETRIEVAL_FAILURE_FRACTION64 : ℚ := roundQ (5 / 100)

/-- The loop body of `exchange_rate_overview` with bit-exact `f64`
accumulation: identical to `processDay` except that `rate_sum` is updated
with the rounded addition `addF64`. -/
def processDay64 (provider : ExchangeProvider) (cf ct : String) (date : Int)
    (s : AggState) : AggState :=
  if isWeekend date then s
  else
    match provider cf ct date with
    | .ok value =>
        { expected_days := s.expected_days + 1
          retrieved_days := s.retrieved_days + 1
          rate_sum := addF64 s.rate_sum value
          max_rate := updateMax value date s.max_rate
          min_rate := updateMin value date s.min_rate }
    | .error _ =>
        { s with expected_days := s.expected_days + 1 }

/-- The `while` loop of `exchange_rate_overview` with bit-exact `f64`
accumulation. -/
def loopGo64 (provider : ExchangeProvider) (cf ct : String) :
    Int → Nat → AggState → AggState
  | _, 0, s => s
  | d, n + 1, s => loopGo64 provider cf ct (d + 1) n (processDay64 provider cf ct d s)

/-- The final loop state of the bit-exact `f64` run. -/
def finalState64 (opt : Opt) (provider : ExchangeProvider) : AggState :=
  loopGo64 provider opt.currency_from opt.currency_to opt.date_from (numDays opt) initState

/-- The function `exchange_rate_overview` from `src/main.rs` (lines
107-181) with bit-exact `f64` arithmetic: the same control flow as
`exchange_rate_overview`, but the failure-fraction test rounds each
operation (`1f64 - (retrieved as f64 / expected as f64)`) and compares
against the `f64` literal `0.05`, and the mean is the rounded quotient of
the rounded running sum. -/
def exchange_rate_overview64 (opt : Opt) (provider : ExchangeProvider) : ExchangeResult :=
  if toLowercase opt.currency_from = toLowercase opt.currency_to then
    .error sameCurrencyMsg
  else if opt.date_to - opt.date_from < 0 then
    .error dateOrderMsg
  else
    let s := finalState64 opt provider
    if s.expected_days = 0 ∨ s.retrieved_days = 0 then
      .error noDataMsg
    else if subF64 1 (divF64 (toF64 s.retrieved_days) (toF64 s.expected_days)) >
        ACCEPTABLE_RETRIEVAL_FAILURE_FRACTION64 then
      .error thresholdMsg
    else
      match s.min_rate, s.max_rate with
      | some mn, some mx =>
          .ok { mean_rate := divF64 s.rate_sum (toF64 s.retrieved_days)
                min_rate := mn
                max_rate := mx
                notice :=
                  if s.expected_days = s.retrieved_days then none
                  else some (noticeMsg (s.expected_days - s.retrieved_days) s.expected_days) }
      | _, _ => .error "panic: unwrap on None"

/-- `n`-fold rounded accumulation of the constant `v` starting from `a`:
the `f64` running sum of `n` successive provider values `v`. -/
def iterAddF64 : ℚ → Nat → ℚ → ℚ
  | a, 0, _ => a
  | a, n + 1, v => iterAddF64 (addF64 a v) n v

theorem mem_visitedDates : ∀ (n : Nat) (d x : Int),
    x ∈ visitedDates d n ↔ d ≤ x ∧ x < d + n
  | 0, d, x => by simp [visitedDates]
  | n + 1, d, x => by
      simp only [visitedDates, List.mem_cons, mem_visitedDates n (d + 1) x]
      push_cast
      omega

theorem visitedDates_pairwise : ∀ (n : Nat) (d : Int),
    (visitedDates d n).Pairwise (· < ·)
  | 0, _ => List.Pairwise.nil
  | n + 1, d => by
      refine List.Pairwise.cons (fun x hx => ?_) (visitedDates_pairwise n (d + 1))
      have := (mem_visitedDates n (d + 1) x).1 hx
      omega

theorem callDates_pairwise (d : Int) (n : Nat) :
    (callDates d n).Pairwise (· < ·) :=
  (visitedDates_pairwise n d).filter _

theorem mem_callDates (d : Int) (n : Nat) (x : Int) :
    x ∈ callDates d n ↔ (d ≤ x ∧ x < d + n) ∧ isWeekend x = false := by
  simp [callDates, List.mem_filter, mem_visitedDates]

theorem mem_retrievedSamples (p : ExchangeProvider) (cf ct : String)
    (d : Int) (n : Nat) (q : ℚ × Int) :
    q ∈ retrievedSamples p cf ct d n ↔
      q.2 ∈ callDates d n ∧ p cf ct q.2 = .ok q.1 := by
  simp only [retrievedSamples, List.mem_filterMap]
  constructor
  · rintro ⟨a, ha, hq⟩
    unfold sampleOf at hq
    rcases hp : p cf ct a with e | v
    · rw [hp] at hq; cases hq
    · rw [hp] at hq
      cases hq
      exact ⟨ha, hp⟩
  · rintro ⟨hmem, hp⟩
    exact ⟨q.2, hmem, by simp [sampleOf, hp]⟩

theorem retrievedSamples_pairwise (p : ExchangeProvider) (cf ct : String)
    (d : Int) (n : Nat) :
    (retrievedSamples p cf ct d n).Pairwise (fun a b => a.2 < b.2) := by
  refine (callDates_pairwise d n).filterMap (sampleOf p cf ct) ?_
  intro a a' hlt b hb b' hb'
  unfold sampleOf at hb hb'
  rcases hp : p cf ct a with e | v <;> rw [hp] at hb
  · cases hb
  rcases hp' : p cf ct a' with e | v' <;> rw [hp'] at hb'
  · cases hb'
  cases hb; cases hb'
  exact hlt

/-- The aggregation loop, characterized: starting from any state `s`, after
`n` days the counters and accumulators are exactly folds over the
specification-side lists. -/
theorem loopGo_spec (p : ExchangeProvider) (cf ct : String) :
    ∀ (n : Nat) (d : Int) (s : AggState),
    loopGo p cf ct d n s =
      { expected_days := s.expected_days + (callDates d n).length
        retrieved_days := s.retrieved_days + (retrievedSamples p cf ct d n).length
        rate_sum := (retrievedSamples p cf ct d n).foldl (fun a q => a + q.1) s.rate_sum
        max_rate := (retrievedSamples p cf ct d n).foldl (fun acc q => updateMax q.1 q.2 acc) s.max_rate
        min_rate := (retrievedSamples p cf ct d n).foldl (fun acc q => updateMin q.1 q.2 acc) s.min_rate }
  | 0, d, s => by simp [loopGo, callDates, visitedDates, retrievedSamples]
  | n + 1, d, s => by
      rw [loopGo, loopGo_spec p cf ct n (d + 1) (processDay p cf ct d s)]
      have hcd : callDates d (n + 1) =
          if isWeekend d then callDates (d + 1) n else d :: callDates (d + 1) n := by
        simp only [callDates, visitedDates, List.filter_cons]
        cases h : isWeekend d <;> simp [h]
      cases hw : isWeekend d
      · rcases hp : p cf ct d with e | v
        · simp [processDay, hw, hp, hcd, retrievedSamples, List.filterMap_cons,
            sampleOf, AggState.mk.injEq]
          omega
        · simp [processDay, hw, hp, hcd, retrievedSamples, List.filterMap_cons,
            sampleOf, AggState.mk.injEq]
          omega
      · simp [processDay, hw, hcd, retrievedSamples]

theorem finalState_eq (opt : Opt) (p : ExchangeProvider) :
    finalState opt p =
      { expected_days := (runCallDates opt).length
        retrieved_days := (runSamples opt p).length
        rate_sum := (runSamples opt p).foldl (fun a q => a + q.1) 0
        max_rate := (runSamples opt p).foldl (fun acc q => updateMax q.1 q.2 acc) none
        min_rate := (runSamples opt p).foldl (fun acc q => updateMin q.1 q.2 acc) none } := by
  rw [finalState, loopGo_spec]
  simp [initState, runCallDates, runSamples]

/-! ### Characterization of the strict min/max folds -/

theorem foldl_updateMin_some : ∀ (l : List (ℚ × Int)) (p₀ : ℚ × Int),
    l.foldl (fun acc q => updateMin q.1 q.2 acc) (some p₀) = some (l.foldl minOf2 p₀)
  | [], _ => rfl
  | q :: l, p₀ => by
      have h1 : updateMin q.1 q.2 (some p₀) = some (minOf2 p₀ q) := by
        simp only [updateMin, minOf2]
        split <;> simp
      simp only [List.foldl_cons, h1, foldl_updateMin_some l (minOf2 p₀ q)]

theorem foldl_updateMax_some : ∀ (l : List (ℚ × Int)) (p₀ : ℚ × Int),
    l.foldl (fun acc q => updateMax q.1 q.2 acc) (some p₀) = some (l.foldl maxOf2 p₀)
  | [], _ => rfl
  | q :: l, p₀ => by
      have h1 : updateMax q.1 q.2 (some p₀) = some (maxOf2 p₀ q) := by
        simp only [updateMax, maxOf2]
        split <;> simp
      simp only [List.foldl_cons, h1, foldl_updateMax_some l (maxOf2 p₀ q)]

theorem foldl_updateMin_cons (q : ℚ × Int) (l : List (ℚ × Int)) :
    (q :: l).foldl (fun acc p => updateMin p.1 p.2 acc) none = some (l.foldl minOf2 q) := by
  have h0 : updateMin q.1 q.2 none = some q := by simp [updateMin]
  rw [List.foldl_cons, h0, foldl_updateMin_some]

theorem foldl_updateMax_cons (q : ℚ × Int) (l : List (ℚ × Int)) :
    (q :: l).foldl (fun acc p => updateMax p.1 p.2 acc) none = some (l.foldl maxOf2 q) := by
  have h0 : updateMax q.1 q.2 none = some q := by simp [updateMax]
  rw [List.foldl_cons, h0, foldl_updateMax_some]

theorem foldl_minOf2_spec : ∀ (l : List (ℚ × Int)) (p₀ : ℚ × Int),
    (p₀ :: l).Pairwise (fun a b => a.2 < b.2) →
    (l.foldl minOf2 p₀) ∈ p₀ :: l ∧
    (∀ q ∈ p₀ :: l, (l.foldl minOf2 p₀).1 ≤ q.1) ∧
    (∀ q ∈ p₀ :: l, q.1 = (l.foldl minOf2 p₀).1 → (l.foldl minOf2 p₀).2 ≤ q.2)
  | [], p₀, _ => by
      refine ⟨List.mem_singleton.2 rfl, ?_, ?_⟩ <;> intro q hq <;>
        rw [List.mem_singleton.1 hq] <;> simp
  | q :: l, p₀, hpw => by
      have hq2 : p₀.2 < q.2 := (List.pairwise_cons.1 hpw).1 q (List.mem_cons_self _ _)
      have hpwtail : (q :: l).Pairwise (fun a b : ℚ × Int => a.2 < b.2) :=
        (List.pairwise_cons.1 hpw).2
      have hfold : (q :: l).foldl minOf2 p₀ = l.foldl minOf2 (minOf2 p₀ q) := rfl
      rw [hfold]
      by_cases hlt : q.1 < p₀.1
      · -- the new sample strictly improves on the current minimum: it replaces it
        have hm : minOf2 p₀ q = q := by simp [minOf2, hlt]
        rw [hm]
        obtain ⟨hmem, hle, htie⟩ := foldl_minOf2_spec l q hpwtail
        set r := l.foldl minOf2 q with hr
        refine ⟨List.mem_cons_of_mem _ hmem, ?_, ?_⟩
        · intro x hx
          rcases List.mem_cons.1 hx with h | h
          · subst h
            exact le_trans (hle q (List.mem_cons_self _ _)) (le_of_lt hlt)
          · exact hle x h
        · intro x hx hx1
          rcases List.mem_cons.1 hx with h | h
          · exfalso
            subst h
            have h1 : r.1 ≤ q.1 := hle q (List.mem_cons_self _ _)
            have h2 : q.1 < r.1 := hx1 ▸ hlt
            exact absurd h1 (not_le.2 h2)
          · exact htie x h hx1
      · -- tie or larger: the current minimum (with the earlier date) is kept
        have hm : minOf2 p₀ q = p₀ := by simp [minOf2, hlt]
        rw [hm]
        have hpq : p₀.1 ≤ q.1 := le_of_not_lt hlt
        have hpwp : (p₀ :: l).Pairwise (fun a b : ℚ × Int => a.2 < b.2) := by
          rw [List.pairwise_cons]
          refine ⟨fun b hb => ?_, hpwtail.of_cons⟩
          exact (List.pairwise_cons.1 hpw).1 b (List.mem_cons_of_mem q hb)
        obtain ⟨hmem, hle, htie⟩ := foldl_minOf2_spec l p₀ hpwp
        set r := l.foldl minOf2 p₀ with hr
        refine ⟨?_, ?_, ?_⟩
        · rcases List.mem_cons.1 hmem with h | h
          · exact h ▸ List.mem_cons_self _ _
          · exact List.mem_cons_of_mem _ (List.mem_cons_of_mem _ h)
        · intro x hx
          rcases List.mem_cons.1 hx with h | h
          · exact h ▸ hle p₀ (List.mem_cons_self _ _)
          rcases List.mem_cons.1 h with h2 | h2
          · exact h2 ▸ le_trans (hle p₀ (List.mem_cons_self _ _)) hpq
          · exact hle x (List.mem_cons_of_mem _ h2)
        · intro x hx hx1
          rcases List.mem_cons.1 hx with h | h
          · exact htie x (h ▸ List.mem_cons_self _ _) (h ▸ hx1)
          rcases List.mem_cons.1 h with h2 | h2
          · -- x = q ties with the running minimum: the earlier date is kept
            subst h2
            have h1 : r.1 ≤ p₀.1 := hle p₀ (List.mem_cons_self _ _)
            have h2 : p₀.1 = r.1 := le_antisymm (hx1 ▸ hpq) (hx1 ▸ h1)
            have h3 : r.2 ≤ p₀.2 := htie p₀ (List.mem_cons_self _ _) h2
            exact le_of_lt (lt_of_le_of_lt h3 hq2)
          · exact htie x (List.mem_cons_of_mem _ h2) hx1

theorem foldl_maxOf2_spec : ∀ (l : List (ℚ × Int)) (p₀ : ℚ × Int),
    (p₀ :: l).Pairwise (fun a b => a.2 < b.2) →
    (l.foldl maxOf2 p₀) ∈ p₀ :: l ∧
    (∀ q ∈ p₀ :: l, q.1 ≤ (l.foldl maxOf2 p₀).1) ∧
    (∀ q ∈ p₀ :: l, q.1 = (l.foldl maxOf2 p₀).1 → (l.foldl maxOf2 p₀).2 ≤ q.2)
  | [], p₀, _ => by
      refine ⟨List.mem_singleton.2 rfl, ?_, ?_⟩ <;> intro q hq <;>
        rw [List.mem_singleton.1 hq] <;> simp
  | q :: l, p₀, hpw => by
      have hq2 : p₀.2 < q.2 := (List.pairwise_cons.1 hpw).1 q (List.mem_cons_self _ _)
      have hpwtail : (q :: l).Pairwise (fun a b : ℚ × Int => a.2 < b.2) :=
        (List.pairwise_cons.1 hpw).2
      have hfold : (q :: l).foldl maxOf2 p₀ = l.foldl maxOf2 (maxOf2 p₀ q) := rfl
      rw [hfold]
      by_cases hlt : q.1 > p₀.1
      · have hm : maxOf2 p₀ q = q := by simp [maxOf2, hlt]
        rw [hm]
        obtain ⟨hmem, hle, htie⟩ := foldl_maxOf2_spec l q hpwtail
        set r := l.foldl maxOf2 q with hr
        refine ⟨List.mem_cons_of_mem _ hmem, ?_, ?_⟩
        · intro x hx
          rcases List.mem_cons.1 hx with h | h
          · subst h
            exact le_trans (le_of_lt hlt) (hle q (List.mem_cons_self _ _))
          · exact hle x h
        · intro x hx hx1
          rcases List.mem_cons.1 hx with h | h
          · exfalso
            subst h
            have h1 : q.1 ≤ r.1 := hle q (List.mem_cons_self _ _)
            have h2 : r.1 < q.1 := hx1 ▸ hlt
            exact absurd h1 (not_le.2 h2)
          · exact htie x h hx1
      · have hm : maxOf2 p₀ q = p₀ := by simp [maxOf2, hlt]
        rw [hm]
        have hpq : q.1 ≤ p₀.1 := le_of_not_lt hlt
        have hpwp : (p₀ :: l).Pairwise (fun a b : ℚ × Int => a.2 < b.2) := by
          rw [List.pairwise_cons]
          refine ⟨fun b hb => ?_, hpwtail.of_cons⟩
          exact (List.pairwise_cons.1 hpw).1 b (List.mem_cons_of_mem q hb)
        obtain ⟨hmem, hle, htie⟩ := foldl_maxOf2_spec l p₀ hpwp
        set r := l.foldl maxOf2 p₀ with hr
        refine ⟨?_, ?_, ?_⟩
        · rcases List.mem_cons.1 hmem with h | h
          · exact h ▸ List.mem_cons_self _ _
          · exact List.mem_cons_of_mem _ (List.mem_cons_of_mem _ h)
        · intro x hx
          rcases List.mem_cons.1 hx with h | h
          · exact h ▸ hle p₀ (List.mem_cons_self _ _)
          rcases List.mem_cons.1 h with h2 | h2
          · exact h2 ▸ le_trans hpq (hle p₀ (List.mem_cons_self _ _))
          · exact hle x (List.mem_cons_of_mem _ h2)
        · intro x hx hx1
          rcases List.mem_cons.1 hx with h | h
          · exact htie x (h ▸ List.mem_cons_self _ _) (h ▸ hx1)
          rcases List.mem_cons.1 h with h2 | h2
          · subst h2
            have h1 : p₀.1 ≤ r.1 := hle p₀ (List.mem_cons_self _ _)
            have h2 : p₀.1 = r.1 := le_antisymm h1 (hx1 ▸ hpq)
            have h3 : r.2 ≤ p₀.2 := htie p₀ (List.mem_cons_self _ _) h2
            exact le_of_lt (lt_of_le_of_lt h3 hq2)
          · exact htie x (List.mem_cons_of_mem _ h2) hx1

/-- The strict-minimum fold of the source, characterized: on a nonempty
date-sorted list it returns a sample that is in the list, has the least
value, and among equal values carries the earliest date. -/
theorem minFold_spec (l : List (ℚ × Int))
    (hpw : l.Pairwise (fun a b => a.2 < b.2)) (hne : l ≠ []) :
    ∃ r, l.foldl (fun acc q => updateMin q.1 q.2 acc) none = some r ∧
      r ∈ l ∧ (∀ q ∈ l, r.1 ≤ q.1) ∧ (∀ q ∈ l, q.1 = r.1 → r.2 ≤ q.2) := by
  match l with
  | [] => exact absurd rfl hne
  | q :: l =>
      obtain ⟨hmem, hle, htie⟩ := foldl_minOf2_spec l q hpw
      exact ⟨l.foldl minOf2 q, foldl_updateMin_cons q l, hmem, hle, htie⟩

/-- The strict-maximum fold of the source, characterized dually. -/
theorem maxFold_spec (l : List (ℚ × Int))
    (hpw : l.Pairwise (fun a b => a.2 < b.2)) (hne : l ≠ []) :
    ∃ r, l.foldl (fun acc q => updateMax q.1 q.2 acc) none = some r ∧
      r ∈ l ∧ (∀ q ∈ l, q.1 ≤ r.1) ∧ (∀ q ∈ l, q.1 = r.1 → r.2 ≤ q.2) := by
  match l with
  | [] => exact absurd rfl hne
  | q :: l =>
      obtain ⟨hmem, hle, htie⟩ := foldl_maxOf2_spec l q hpw
      exact ⟨l.foldl maxOf2 q, foldl_updateMax_cons q l, hmem, hle, htie⟩

theorem runSamples_pairwise (opt : Opt) (p : ExchangeProvider) :
    (runSamples opt p).Pairwise (fun a b => a.2 < b.2) :=
  retrievedSamples_pairwise p opt.currency_from opt.currency_to opt.date_from (numDays opt)

/-- After the input validation succeeds, `exchange_rate_overview` is the
post-loop branch on the final loop state. -/
theorem overview_valid (opt : Opt) (p : ExchangeProvider)
    (hc : ¬ toLowercase opt.currency_from = toLowercase opt.currency_to)
    (hd : opt.date_from ≤ opt.date_to) :
    exchange_rate_overview opt p =
      (if (finalState opt p).expected_days = 0 ∨ (finalState opt p).retrieved_days = 0 then
        .error noDataMsg
      else if 1 - (((finalState opt p).retrieved_days : ℚ) / ((finalState opt p).expected_days : ℚ)) >
          ACCEPTABLE_RETRIEVAL_FAILURE_FRACTION then
        .error thresholdMsg
      else
        match (finalState opt p).min_rate, (finalState opt p).max_rate with
        | some mn, some mx =>
            .ok { mean_rate := (finalState opt p).rate_sum / (((finalState opt p).retrieved_days : ℚ))
                  min_rate := mn
                  max_rate := mx
                  notice :=
                    if (finalState opt p).expected_days = (finalState opt p).retrieved_days then none
                    else some (noticeMsg ((finalState opt p).expected_days - (finalState opt p).retrieved_days)
                      (finalState opt p).expected_days) }
        | _, _ => .error "panic: unwrap on None") := by
  rw [exchange_rate_overview, if_neg hc, if_neg (by omega : ¬ opt.date_to - opt.date_from < 0)]

/-- Everything a successful run of `exchange_rate_overview` determines, in
terms of the specification-side lists. -/
theorem overview_ok_char (opt : Opt) (p : ExchangeProvider) (v : ExchangeValue)
    (h : exchange_rate_overview opt p = .ok v) :
    runSamples opt p ≠ [] ∧
    v.mean_rate = (runSamples opt p).foldl (fun a q => a + q.1) 0 / ((runSamples opt p).length : ℚ) ∧
    (runSamples opt p).foldl (fun acc q => updateMin q.1 q.2 acc) none = some v.min_rate ∧
    (runSamples opt p).foldl (fun acc q => updateMax q.1 q.2 acc) none = some v.max_rate ∧
    v.notice = (if (runCallDates opt).length = (runSamples opt p).length then none
                else some (noticeMsg ((runCallDates opt).length - (runSamples opt p).length)
                  ((runCallDates opt).length))) := by
  rw [exchange_rate_overview] at h
  split at h
  · simp at h
  split at h
  · simp at h
  rw [finalState_eq] at h
  simp only at h
  split at h
  · simp at h
  · split at h
    · simp at h
    · rename_i hzero _
      split at h
      · rename_i mn mx hmn hmx
        rw [Except.ok.injEq] at h
        subst h
        refine ⟨?_, rfl, hmn, hmx, rfl⟩
        intro hnil
        exact hzero (Or.inr (by rw [hnil]; rfl))
      · simp at h

theorem loopGo_congr (p p' : ExchangeProvider) (cf ct : String) :
    ∀ (n : Nat) (d : Int) (s : AggState),
    (∀ x ∈ callDates d n, p cf ct x = p' cf ct x) →
    loopGo p cf ct d n s = loopGo p' cf ct d n s
  | 0, _, _, _ => rfl
  | n + 1, d, s, hagree => by
      have htail : ∀ x ∈ callDates (d + 1) n, p cf ct x = p' cf ct x := by
        intro x hx
        refine hagree x ((mem_callDates d (n + 1) x).2 ?_)
        have := (mem_callDates (d + 1) n x).1 hx
        push_cast at this ⊢
        exact ⟨by omega, this.2⟩
      have hstep : processDay p cf ct d s = processDay p' cf ct d s := by
        unfold processDay
        cases hw : isWeekend d
        · have hd : d ∈ callDates d (n + 1) := by
            rw [mem_callDates]
            push_cast
            exact ⟨by omega, hw⟩
          rw [hagree d hd]
        · simp
      rw [loopGo, loopGo, hstep, loopGo_congr p p' cf ct n (d + 1) (processDay p' cf ct d s) htail]

/-- The call trace of the loop is exactly the list of business days of the
range, in order. -/
theorem loopCalls_eq_callDates : ∀ (n : Nat) (d : Int),
    loopCalls d n = callDates d n
  | 0, _ => rfl
  | n + 1, d => by
      rw [loopCalls, loopCalls_eq_callDates n (d + 1)]
      simp only [callDates, visitedDates, List.filter_cons]
      cases hw : isWeekend d <;> simp [hw]

/-- `exchange_rate_overview` depends on the provider only through its values
on the business days of the range. -/
theorem overview_congr (opt : Opt) (p p' : ExchangeProvider)
    (hagree : ∀ d ∈ runCallDates opt,
      p opt.currency_from opt.currency_to d = p' opt.currency_from opt.currency_to d) :
    exchange_rate_overview opt p = exchange_rate_overview opt p' := by
  have hfs : finalState opt p = finalState opt p' :=
    loopGo_congr p p' opt.currency_from opt.currency_to (numDays opt) opt.date_from
      initState hagree
  rw [exchange_rate_overview, exchange_rate_overview, hfs]

theorem filterMap_some_pair (v : ℚ) : ∀ (l : List Int),
    l.filterMap (fun day => some (v, day)) = l.map (fun d => (v, d))
  | [] => rfl
  | d :: l => by
      simp only [List.filterMap_cons, List.map_cons, filterMap_some_pair v l]

/-- With a provider that always succeeds with the constant `v`, every
business day yields the sample `(v, day)`. -/
theorem runSamples_const (opt : Opt) (v : ℚ) :
    runSamples opt (fun _ _ _ => .ok v) = (runCallDates opt).map (fun d => (v, d)) := by
  unfold runSamples retrievedSamples runCallDates
  rw [← filterMap_some_pair v]
  congr 1

theorem foldl_add_map_const (v : ℚ) : ∀ (l : List Int) (a : ℚ),
    ((l.map (fun d => (v, d))).foldl (fun acc q => acc + q.1) a) = a + l.length * v
  | [], a => by simp
  | d :: l, a => by
      simp only [List.map_cons, List.foldl_cons, foldl_add_map_const v l (a + v),
        List.length_cons]
      push_cast
      ring

/-! ### The claims -/

/-- C7: whenever the two currencies are equal after case-insensitive
comparison, `exchange_rate_overview` fails with the same-currency invalid
input error, whatever the date range, and the provider is never consulted
(the result is the same for every provider). -/
theorem C7_same_currency_always_invalid (opt : Opt) (p : ExchangeProvider)
    (hc : toLowercase opt.currency_from = toLowercase opt.currency_to) :
    exchange_rate_overview opt p = .error sameCurrencyMsg ∧
    ∀ p' : ExchangeProvider, exchange_rate_overview opt p = exchange_rate_overview opt p' := by
  have h1 : ∀ q : ExchangeProvider, exchange_rate_overview opt q = .error sameCurrencyMsg := by
    intro q
    rw [exchange_rate_overview, if_pos hc]
  exact ⟨h1 p, fun p' => (h1 p).trans (h1 p').symm⟩

/-- Witness for C7 at a concrete input: `USD`/`usd` differ only in case;
the run fails with the same-currency error even on a valid date range with
an always-succeeding provider. -/
theorem C7_witness :
    toLowercase "USD" = toLowercase "usd" ∧
    exchange_rate_overview ⟨"USD", "usd", 18687, 18691⟩ (fun _ _ _ => .ok 1) =
      .error sameCurrencyMsg :=
  ⟨by decide, (C7_same_currency_always_invalid ⟨"USD", "usd", 18687, 18691⟩
    (fun _ _ _ => .ok 1) (by decide)).1⟩

/-- C8: with distinct currencies, a range whose start is strictly after its
end fails with the date-order invalid input error, while a single-day range
(`date_from = date_to`) is never rejected with that error. -/
theorem C8_date_order_validation (opt : Opt) (p : ExchangeProvider)
    (hc : ¬ toLowercase opt.currency_from = toLowercase opt.currency_to) :
    (opt.date_to < opt.date_from → exchange_rate_overview opt p = .error dateOrderMsg) ∧
    (opt.date_from = opt.date_to → exchange_rate_overview opt p ≠ .error dateOrderMsg) := by
  constructor
  · intro hlt
    rw [exchange_rate_overview, if_neg hc, if_pos (by omega)]
  · intro heq hcontra
    rw [overview_valid opt p hc (by omega)] at hcontra
    split at hcontra
    · exact absurd (Except.error.inj hcontra) (by decide)
    · split at hcontra
      · exact absurd (Except.error.inj hcontra) (by decide)
      · split at hcontra
        · exact Except.noConfusion hcontra
        · exact absurd (Except.error.inj hcontra) (by decide)

/-- Witness for C8 at concrete inputs: a reversed two-day range is rejected
with the date-order error; an equal-dates range is not rejected with it. -/
theorem C8_witness :
    exchange_rate_overview ⟨"AAA", "BBB", 18692, 18691⟩ (fun _ _ _ => .ok 1) =
      .error dateOrderMsg ∧
    exchange_rate_overview ⟨"AAA", "BBB", 18687, 18687⟩ (fun _ _ _ => .ok 1) ≠
      .error dateOrderMsg :=
  ⟨(C8_date_order_validation ⟨"AAA", "BBB", 18692, 18691⟩ (fun _ _ _ => .ok 1)
      (by decide)).1 (by decide),
   (C8_date_order_validation ⟨"AAA", "BBB", 18687, 18687⟩ (fun _ _ _ => .ok 1)
      (by decide)).2 rfl⟩

/-- C9: once `get_exchange_rate` has succeeded through a network fetch
(returning the value it persisted to the cache), every later call with the
same key returns the identical cached value and performs no network request
— whatever the network would answer by then. -/
theorem C9_cache_idempotence (net net' : CacheKey → Except String ℚ)
    (cache : Cache) (k : CacheKey) (v : ℚ) (c' : Cache)
    (h : get_exchange_rate net cache k = ⟨.ok v, c', true⟩) :
    get_exchange_rate net' c' k = ⟨.ok v, c', false⟩ := by
  rcases hck : cache k with _ | f
  · rcases hnet : net k with e | rv
    · have heval : get_exchange_rate net cache k = ⟨.error e, cache, true⟩ := by
        unfold get_exchange_rate
        rw [hck, hnet]
      rw [heval] at h
      injection h with h1 h2 h3
      exact Except.noConfusion h1
    · have heval : get_exchange_rate net cache k =
          ⟨.ok rv, fun x => if x = k then some (.ok rv) else cache x, true⟩ := by
        unfold get_exchange_rate
        rw [hck, hnet]
      rw [heval] at h
      injection h with h1 h2 h3
      have hv : rv = v := Except.ok.inj h1
      subst hv
      subst h2
      have hc'k : (fun x => if x = k then some (Except.ok rv) else cache x) k =
          some (.ok rv) := by simp
      unfold get_exchange_rate
      rw [hc'k]
  · rcases f with fe | fv
    · have heval : get_exchange_rate net cache k =
          ⟨.error "cannot parse cached rate value", cache, false⟩ := by
        unfold get_exchange_rate
        rw [hck]
      rw [heval] at h
      injection h with h1 h2 h3
      exact Bool.noConfusion h3
    · have heval : get_exchange_rate net cache k = ⟨.ok fv, cache, false⟩ := by
        unfold get_exchange_rate
        rw [hck]
      rw [heval] at h
      injection h with h1 h2 h3
      exact Bool.noConfusion h3

/-- Witness for C9 at a concrete input: a first call on an empty cache
fetches `2` from the network and persists it; a second call returns the
cached `2` without a network request, even though the network is down. -/
theorem C9_witness :
    get_exchange_rate (fun _ => .ok 2) (fun _ => none) ("USD", "GBP", 18687) =
      ⟨.ok 2, (fun x => if x = ("USD", "GBP", 18687) then some (.ok 2) else none), true⟩ ∧
    get_exchange_rate (fun _ => .error "network down")
      (fun x => if x = ("USD", "GBP", 18687) then some (.ok 2) else none)
      ("USD", "GBP", 18687) =
      ⟨.ok 2, (fun x => if x = ("USD", "GBP", 18687) then some (.ok 2) else none), false⟩ := by
  constructor
  · rfl
  · exact C9_cache_idempotence (fun _ => .ok 2) (fun _ => .error "network down")
      (fun _ => none) ("USD", "GBP", 18687) 2
      (fun x => if x = ("USD", "GBP", 18687) then some (.ok 2) else none) rfl

/-- C4: for inputs passing the currency and date-order validation, a range
with no business days, or one where every provider call fails, is rejected
with the no-data error. -/
theorem C4_no_data_error (opt : Opt) (p : ExchangeProvider)
    (hc : ¬ toLowercase opt.currency_from = toLowercase opt.currency_to)
    (hd : opt.date_from ≤ opt.date_to)
    (h0 : (runCallDates opt).length = 0 ∨ runSamples opt p = []) :
    exchange_rate_overview opt p = .error noDataMsg := by
  rw [overview_valid opt p hc hd, finalState_eq]
  simp only
  rw [if_pos]
  rcases h0 with h0 | h0
  · exact Or.inl h0
  · exact Or.inr (by rw [h0]; rfl)

/-- Witness for C4 at the spec's concrete input: the single-Saturday range
2021-03-06..2021-03-06 (day 18692) fails with the no-data error although the
provider always succeeds. -/
theorem C4_witness :
    exchange_rate_overview ⟨"AAA", "BBB", 18692, 18692⟩ (fun _ _ _ => .ok 1) =
      .error noDataMsg :=
  C4_no_data_error ⟨"AAA", "BBB", 18692, 18692⟩ (fun _ _ _ => .ok 1)
    (by decide) (by decide) (Or.inl (by decide))

/-- C6: on success, the notice is `none` exactly when every expected
business day was retrieved; otherwise it is the exact failure-count message
built from the two counters. -/
theorem C6_notice_characterization (opt : Opt) (p : ExchangeProvider) (v : ExchangeValue)
    (h : exchange_rate_overview opt p = .ok v) :
    (v.notice = none ↔ (runSamples opt p).length = (runCallDates opt).length) ∧
    ((runSamples opt p).length ≠ (runCallDates opt).length →
      v.notice = some (noticeMsg ((runCallDates opt).length - (runSamples opt p).length)
        ((runCallDates opt).length))) := by
  have hnotice := (overview_ok_char opt p v h).2.2.2.2
  by_cases heq : (runCallDates opt).length = (runSamples opt p).length
  · rw [if_pos heq] at hnotice
    exact ⟨iff_of_true hnotice heq.symm, fun hne => absurd heq.symm hne⟩
  · rw [if_neg heq] at hnotice
    refine ⟨iff_of_false (by rw [hnotice]; exact Option.some_ne_none _) ?_, fun _ => hnotice⟩
    exact fun hcontra => heq hcontra.symm

/-- Witness for C6 at a concrete input: the range 2021-01-01..2021-03-05
(days 18628..18691, 46 business days) with exactly one failing day yields
the notice "we failed to retrieve 1 of 46 rates". -/
theorem C6_witness :
    exchange_rate_overview ⟨"AAA", "BBB", 18628, 18691⟩
      (fun _ _ d => if d = 18691 then .error "error" else .ok 1) =
      .ok ⟨1, (1, 18628), (1, 18628), some "we failed to retrieve 1 of 46 rates"⟩ ∧
    (45 ≠ 46 →
      (⟨1, (1, 18628), (1, 18628), some "we failed to retrieve 1 of 46 rates"⟩ :
        ExchangeValue).notice = some (noticeMsg (46 - 45) 46)) := by
  constructor
  · decide
  · have h6 := C6_notice_characterization ⟨"AAA", "BBB", 18628, 18691⟩
      (fun _ _ d => if d = 18691 then .error "error" else .ok 1)
      ⟨1, (1, 18628), (1, 18628), some "we failed to retrieve 1 of 46 rates"⟩
      (by decide)
    intro hne
    have hlen45 : (runSamples ⟨"AAA", "BBB", 18628, 18691⟩
      (fun _ _ d => if d = 18691 then .error "error" else .ok 1)).length = 45 := by decide
    have hlen46 : (runCallDates (⟨"AAA", "BBB", 18628, 18691⟩ : Opt)).length = 46 := by decide
    have := h6.2 (by rw [hlen45, hlen46]; exact hne)
    rw [hlen45, hlen46] at this
    exact this

/-- C1: on success the mean rate is the sum of the successfully retrieved
rates, accumulated by a left fold in ascending date order, divided by the
number of business days whose lookup succeeded (weekends and failed days
appear in neither the sum nor the denominator). -/
theorem C1_mean_is_ordered_sum_over_retrieved (opt : Opt) (p : ExchangeProvider)
    (v : ExchangeValue) (h : exchange_rate_overview opt p = .ok v) :
    v.mean_rate = (runSamples opt p).foldl (fun a q => a + q.1) 0 /
      ((runSamples opt p).length : ℚ) :=
  (overview_ok_char opt p v h).2.1

/-- Witness for C1 at a concrete input: two business days with rates 3 and
5 give mean 4 = (0 + 3 + 5) / 2. -/
theorem C1_witness :
    exchange_rate_overview ⟨"AAA", "BBB", 18687, 18688⟩
      (fun _ _ d => .ok (if d = 18687 then 3 else 5)) =
      .ok ⟨4, (3, 18687), (5, 18688), none⟩ ∧
    (⟨4, (3, 18687), (5, 18688), none⟩ : ExchangeValue).mean_rate =
      (runSamples ⟨"AAA", "BBB", 18687, 18688⟩
        (fun _ _ d => .ok (if d = 18687 then 3 else 5))).foldl (fun a q => a + q.1) 0 /
      ((runSamples ⟨"AAA", "BBB", 18687, 18688⟩
        (fun _ _ d => .ok (if d = 18687 then 3 else 5))).length : ℚ) :=
  ⟨by decide, C1_mean_is_ordered_sum_over_retrieved ⟨"AAA", "BBB", 18687, 18688⟩
    (fun _ _ d => .ok (if d = 18687 then 3 else 5))
    ⟨4, (3, 18687), (5, 18688), none⟩ (by decide)⟩

/-- C3: on success, `min_rate` (resp. `max_rate`) is a retrieved sample
whose value is the minimum (resp. maximum) of all retrieved rates, and the
strict update means the earliest date achieving the extreme is kept: every
sample tying the extreme value has a date no earlier than the reported one. -/
theorem C3_min_max_strict_extremes (opt : Opt) (p : ExchangeProvider)
    (v : ExchangeValue) (h : exchange_rate_overview opt p = .ok v) :
    (v.min_rate ∈ runSamples opt p ∧
     (∀ q ∈ runSamples opt p, v.min_rate.1 ≤ q.1) ∧
     (∀ q ∈ runSamples opt p, q.1 = v.min_rate.1 → v.min_rate.2 ≤ q.2)) ∧
    (v.max_rate ∈ runSamples opt p ∧
     (∀ q ∈ runSamples opt p, q.1 ≤ v.max_rate.1) ∧
     (∀ q ∈ runSamples opt p, q.1 = v.max_rate.1 → v.max_rate.2 ≤ q.2)) := by
  obtain ⟨hne, -, hminf, hmaxf, -⟩ := overview_ok_char opt p v h
  obtain ⟨rmin, hmin_eq, hminmem, hminle, hmintie⟩ :=
    minFold_spec (runSamples opt p) (runSamples_pairwise opt p) hne
  obtain ⟨rmax, hmax_eq, hmaxmem, hmaxle, hmaxtie⟩ :=
    maxFold_spec (runSamples opt p) (runSamples_pairwise opt p) hne
  have hrmin : rmin = v.min_rate := Option.some.inj (hmin_eq.symm.trans hminf)
  have hrmax : rmax = v.max_rate := Option.some.inj (hmax_eq.symm.trans hmaxf)
  subst hrmin
  subst hrmax
  exact ⟨⟨hminmem, hminle, hmintie⟩, ⟨hmaxmem, hmaxle, hmaxtie⟩⟩

/-- Witness for C3 at a concrete input with a tie: rates 5, 3, 3 over
Mon-Wed give min (3, Tuesday) — the earliest date with the minimum — and
max (5, Monday). -/
theorem C3_witness :
    exchange_rate_overview ⟨"AAA", "BBB", 18687, 18689⟩
      (fun _ _ d => .ok (if d = 18687 then 5 else 3)) =
      .ok ⟨11 / 3, (3, 18688), (5, 18687), none⟩ ∧
    (((⟨11 / 3, (3, 18688), (5, 18687), none⟩ : ExchangeValue).min_rate ∈
        runSamples ⟨"AAA", "BBB", 18687, 18689⟩
          (fun _ _ d => .ok (if d = 18687 then 5 else 3)) ∧
      (∀ q ∈ runSamples ⟨"AAA", "BBB", 18687, 18689⟩
          (fun _ _ d => .ok (if d = 18687 then 5 else 3)),
        (⟨11 / 3, (3, 18688), (5, 18687), none⟩ : ExchangeValue).min_rate.1 ≤ q.1) ∧
      (∀ q ∈ runSamples ⟨"AAA", "BBB", 18687, 18689⟩
          (fun _ _ d => .ok (if d = 18687 then 5 else 3)),
        q.1 = (⟨11 / 3, (3, 18688), (5, 18687), none⟩ : ExchangeValue).min_rate.1 →
        (⟨11 / 3, (3, 18688), (5, 18687), none⟩ : ExchangeValue).min_rate.2 ≤ q.2)) ∧
     ((⟨11 / 3, (3, 18688), (5, 18687), none⟩ : ExchangeValue).max_rate ∈
        runSamples ⟨"AAA", "BBB", 18687, 18689⟩
          (fun _ _ d => .ok (if d = 18687 then 5 else 3)) ∧
      (∀ q ∈ runSamples ⟨"AAA", "BBB", 18687, 18689⟩
          (fun _ _ d => .ok (if d = 18687 then 5 else 3)),
        q.1 ≤ (⟨11 / 3, (3, 18688), (5, 18687), none⟩ : ExchangeValue).max_rate.1) ∧
      (∀ q ∈ runSamples ⟨"AAA", "BBB", 18687, 18689⟩
          (fun _ _ d => .ok (if d = 18687 then 5 else 3)),
        q.1 = (⟨11 / 3, (3, 18688), (5, 18687), none⟩ : ExchangeValue).max_rate.1 →
        (⟨11 / 3, (3, 18688), (5, 18687), none⟩ : ExchangeValue).max_rate.2 ≤ q.2))) :=
  ⟨by decide, C3_min_max_strict_extremes ⟨"AAA", "BBB", 18687, 18689⟩
    (fun _ _ d => .ok (if d = 18687 then 5 else 3))
    ⟨11 / 3, (3, 18688), (5, 18687), none⟩ (by decide)⟩

/-- C5: the loop visits every calendar date of the range in ascending order
and consults the provider exactly once per business day, with that date:
its call trace is exactly the ascending list of non-weekend dates of the
range (so no date is ever called twice — no retries), and the result of
`exchange_rate_overview` depends on the provider only through those calls. -/
theorem C5_iteration_and_call_discipline (opt : Opt) :
    loopCalls opt.date_from (numDays opt) = runCallDates opt ∧
    (runCallDates opt).Pairwise (· < ·) ∧
    (∀ d ∈ runCallDates opt, isWeekend d = false ∧ opt.date_from ≤ d ∧ d ≤ opt.date_to) ∧
    (∀ p p' : ExchangeProvider,
      (∀ d ∈ runCallDates opt, p opt.currency_from opt.currency_to d =
        p' opt.currency_from opt.currency_to d) →
      exchange_rate_overview opt p = exchange_rate_overview opt p') := by
  refine ⟨loopCalls_eq_callDates (numDays opt) opt.date_from,
    callDates_pairwise opt.date_from (numDays opt), ?_,
    fun p p' => overview_congr opt p p'⟩
  intro d hd
  have hmem := (mem_callDates opt.date_from (numDays opt) d).1 hd
  refine ⟨hmem.2, hmem.1.1, ?_⟩
  have h2 := hmem.1.2
  unfold numDays at h2
  omega

/-- Witness for C5 at a concrete input: over the business week Mon-Fri the
call trace equals the five business days, and two providers that agree on
business days (one failing on weekends) produce identical results. -/
theorem C5_witness :
    loopCalls 18687 (numDays ⟨"AAA", "BBB", 18687, 18691⟩) =
      runCallDates ⟨"AAA", "BBB", 18687, 18691⟩ ∧
    exchange_rate_overview ⟨"AAA", "BBB", 18687, 18691⟩ (fun _ _ _ => .ok 2) =
      exchange_rate_overview ⟨"AAA", "BBB", 18687, 18691⟩
        (fun _ _ d => if isWeekend d then .error "weekend" else .ok 2) :=
  ⟨(C5_iteration_and_call_discipline ⟨"AAA", "BBB", 18687, 18691⟩).1,
   (C5_iteration_and_call_discipline ⟨"AAA", "BBB", 18687, 18691⟩).2.2.2
     (fun _ _ _ => .ok 2) (fun _ _ d => if isWeekend d then .error "weekend" else .ok 2)
     (by decide)⟩

/-! ### Lemmas about the binary64 model -/

theorem natLog2Aux_spec : ∀ (fuel n : Nat), 0 < n → n ≤ fuel →
    2 ^ natLog2Aux fuel n ≤ n ∧ n < 2 ^ (natLog2Aux fuel n + 1)
  | 0, n, hn, hf => by omega
  | fuel + 1, n, hn, hf => by
      rw [natLog2Aux]
      by_cases h2 : n < 2
      · rw [if_pos h2]
        constructor
        · simpa using hn
        · simpa using h2
      · rw [if_neg h2]
        have hrec := natLog2Aux_spec fuel (n / 2) (by omega) (by omega)
        set L := natLog2Aux fuel (n / 2) with hL
        have hp1 : 2 ^ (L + 1) = 2 ^ L * 2 := pow_succ 2 L
        have hp2 : 2 ^ (L + 1 + 1) = 2 ^ (L + 1) * 2 := pow_succ 2 (L + 1)
        omega

theorem natLog2_spec (n : Nat) (hn : 0 < n) :
    2 ^ natLog2 n ≤ n ∧ n < 2 ^ (natLog2 n + 1) :=
  natLog2Aux_spec n n hn le_rfl

theorem le_roundMantissa (a b : Nat) : a / b ≤ roundMantissa a b := by
  simp only [roundMantissa]
  split
  · exact le_rfl
  · split
    · omega
    · split <;> omega

theorem roundMantissa_one (a : Nat) : roundMantissa a 1 = a := by
  simp only [roundMantissa, Nat.mod_one, Nat.div_one]
  norm_num

theorem floorLog2_one (n : Nat) (hn : 0 < n) : floorLog2 n 1 = natLog2 n := by
  unfold floorLog2
  have h1 : natLog2 1 = 0 := rfl
  rw [h1, if_pos]
  · simp
  · simpa using (natLog2_spec n hn).1

/-- The `as f64` cast of a positive counter is positive (doubles never
collapse a positive integer to zero). -/
theorem toF64_pos (n : Nat) (hn : 0 < n) : 0 < toF64 n := by
  have hspec := natLog2_spec n hn
  unfold toF64 roundQ
  rw [if_neg (by exact_mod_cast hn.ne' : ¬((n : ℚ) = 0)),
    if_pos (by exact_mod_cast hn : (0 : ℚ) < n)]
  unfold roundPosQ
  simp only [Rat.num_natCast, Rat.den_natCast, Int.toNat_natCast, floorLog2_one n hn]
  by_cases h52 : (52 : Int) ≤ (natLog2 n : Int)
  · rw [if_pos h52]
    have hkle : ((natLog2 n : Int) - 52).toNat ≤ natLog2 n := by omega
    have hk : 2 ^ ((natLog2 n : Int) - 52).toNat ≤ n :=
      le_trans (Nat.pow_le_pow_right (by omega) hkle) hspec.1
    have hm : 1 ≤ roundMantissa n (1 * 2 ^ ((natLog2 n : Int) - 52).toNat) := by
      refine le_trans ?_ (le_roundMantissa n _)
      rw [one_mul]
      exact (Nat.one_le_div_iff (Nat.pos_pow_of_pos _ (by omega))).2 hk
    have h0 : (0 : ℚ) < (roundMantissa n (1 * 2 ^ ((natLog2 n : Int) - 52).toNat) : ℚ) := by
      exact_mod_cast hm
    exact mul_pos h0 (pow_pos (by norm_num) _)
  · rw [if_neg h52]
    rw [roundMantissa_one]
    refine div_pos ?_ (pow_pos (by norm_num) _)
    have : 0 < n * 2 ^ ((52 : Int) - natLog2 n).toNat :=
      Nat.mul_pos hn (Nat.pos_pow_of_pos _ (by omega))
    exact_mod_cast this

theorem roundQ_zero : roundQ 0 = 0 := by
  simp [roundQ]

theorem roundQ_one : roundQ 1 = 1 := by decide

theorem updateMin_isSome (v : ℚ) (d : Int) (o : Option (ℚ × Int)) :
    (updateMin v d o).isSome = true := by
  cases o
  · rfl
  · simp only [updateMin]
    split <;> rfl

theorem updateMax_isSome (v : ℚ) (d : Int) (o : Option (ℚ × Int)) :
    (updateMax v d o).isSome = true := by
  cases o
  · rfl
  · simp only [updateMax]
    split <;> rfl

/-- `processDay64` differs from `processDay` only in `rate_sum`: the two
counters and the min/max tracking agree. -/
theorem processDay64_counters (p : ExchangeProvider) (cf ct : String) (d : Int)
    (s s' : AggState)
    (h1 : s.expected_days = s'.expected_days) (h2 : s.retrieved_days = s'.retrieved_days)
    (h3 : s.min_rate = s'.min_rate) (h4 : s.max_rate = s'.max_rate) :
    (processDay64 p cf ct d s).expected_days = (processDay p cf ct d s').expected_days ∧
    (processDay64 p cf ct d s).retrieved_days = (processDay p cf ct d s').retrieved_days ∧
    (processDay64 p cf ct d s).min_rate = (processDay p cf ct d s').min_rate ∧
    (processDay64 p cf ct d s).max_rate = (processDay p cf ct d s').max_rate := by
  unfold processDay64 processDay
  cases hw : isWeekend d
  · rcases hp : p cf ct d with e | val <;> simp [hw, hp, h1, h2, h3, h4]
  · simp [hw, h1, h2, h3, h4]

theorem loopGo64_counters (p : ExchangeProvider) (cf ct : String) :
    ∀ (n : Nat) (d : Int) (s s' : AggState),
    s.expected_days = s'.expected_days → s.retrieved_days = s'.retrieved_days →
    s.min_rate = s'.min_rate → s.max_rate = s'.max_rate →
    (loopGo64 p cf ct d n s).expected_days = (loopGo p cf ct d n s').expected_days ∧
    (loopGo64 p cf ct d n s).retrieved_days = (loopGo p cf ct d n s').retrieved_days ∧
    (loopGo64 p cf ct d n s).min_rate = (loopGo p cf ct d n s').min_rate ∧
    (loopGo64 p cf ct d n s).max_rate = (loopGo p cf ct d n s').max_rate
  | 0, d, s, s', h1, h2, h3, h4 => ⟨h1, h2, h3, h4⟩
  | n + 1, d, s, s', h1, h2, h3, h4 => by
      rw [loopGo64, loopGo]
      obtain ⟨g1, g2, g3, g4⟩ := processDay64_counters p cf ct d s s' h1 h2 h3 h4
      exact loopGo64_counters p cf ct n (d + 1) _ _ g1 g2 g3 g4

/-- The counters and min/max tracking of the bit-exact run equal those of
the exact-rational run (rounding only affects `rate_sum`). -/
theorem finalState64_counters (opt : Opt) (p : ExchangeProvider) :
    (finalState64 opt p).expected_days = (finalState opt p).expected_days ∧
    (finalState64 opt p).retrieved_days = (finalState opt p).retrieved_days ∧
    (finalState64 opt p).min_rate = (finalState opt p).min_rate ∧
    (finalState64 opt p).max_rate = (finalState opt p).max_rate :=
  loopGo64_counters p opt.currency_from opt.currency_to (numDays opt) opt.date_from
    initState initState rfl rfl rfl rfl

/-- With a constant provider, the bit-exact running sum is the rounded
accumulation of one `v` per business day. -/
theorem loopGo64_sum_const (v : ℚ) (cf ct : String) :
    ∀ (n : Nat) (d : Int) (s : AggState),
    (loopGo64 (fun _ _ _ => .ok v) cf ct d n s).rate_sum =
      iterAddF64 s.rate_sum (callDates d n).length v
  | 0, d, s => by simp [loopGo64, callDates, visitedDates, iterAddF64]
  | n + 1, d, s => by
      rw [loopGo64, loopGo64_sum_const v cf ct n (d + 1) _]
      have hcd : (callDates d (n + 1)).length =
          if isWeekend d then (callDates (d + 1) n).length
          else (callDates (d + 1) n).length + 1 := by
        simp only [callDates, visitedDates, List.filter_cons]
        cases hw : isWeekend d <;> simp [hw]
      unfold processDay64
      cases hw : isWeekend d
      · rw [hcd]
        simp only [hw, Bool.false_eq_true, if_false, iterAddF64]
      · rw [hcd]
        simp only [hw, if_true]

/-- Once at least one rate has been retrieved, the min/max trackers of the
bit-exact loop are set. -/
theorem loopGo64_some_of_retrieved (p : ExchangeProvider) (cf ct : String) :
    ∀ (n : Nat) (d : Int) (s : AggState),
    (0 < s.retrieved_days → s.min_rate.isSome = true ∧ s.max_rate.isSome = true) →
    (0 < (loopGo64 p cf ct d n s).retrieved_days →
      (loopGo64 p cf ct d n s).min_rate.isSome = true ∧
      (loopGo64 p cf ct d n s).max_rate.isSome = true)
  | 0, d, s, hinv => hinv
  | n + 1, d, s, hinv => by
      rw [loopGo64]
      refine loopGo64_some_of_retrieved p cf ct n (d + 1) _ ?_
      unfold processDay64
      cases hw : isWeekend d
      · rcases hp : p cf ct d with e | val
        · simpa [hw, hp] using hinv
        · intro _
          simp [hw, hp, updateMin_isSome, updateMax_isSome]
      · simpa [hw] using hinv

/-- After the input validation succeeds, `exchange_rate_overview64` is the
post-loop branch on the final bit-exact loop state. -/
theorem overview64_valid (opt : Opt) (p : ExchangeProvider)
    (hc : ¬ toLowercase opt.currency_from = toLowercase opt.currency_to)
    (hd : opt.date_from ≤ opt.date_to) :
    exchange_rate_overview64 opt p =
      (if (finalState64 opt p).expected_days = 0 ∨ (finalState64 opt p).retrieved_days = 0 then
        .error noDataMsg
      else if subF64 1 (divF64 (toF64 (finalState64 opt p).retrieved_days)
          (toF64 (finalState64 opt p).expected_days)) >
          ACCEPTABLE_RETRIEVAL_FAILURE_FRACTION64 then
        .error thresholdMsg
      else
        match (finalState64 opt p).min_rate, (finalState64 opt p).max_rate with
        | some mn, some mx =>
            .ok { mean_rate := divF64 (finalState64 opt p).rate_sum
                    (toF64 (finalState64 opt p).retrieved_days)
                  min_rate := mn
                  max_rate := mx
                  notice :=
                    if (finalState64 opt p).expected_days = (finalState64 opt p).retrieved_days
                    then none
                    else some (noticeMsg
                      ((finalState64 opt p).expected_days - (finalState64 opt p).retrieved_days)
                      (finalState64 opt p).expected_days) }
        | _, _ => .error "panic: unwrap on None") := by
  rw [exchange_rate_overview64, if_neg hc, if_neg (by omega : ¬ opt.date_to - opt.date_from < 0)]

/-- C2, counterexample to the claim as stated: at an exact failure fraction
of 5% — 20 business days (2021-03-01..2021-03-26), exactly 1 failure — the
fraction 1 - 19/20 is at (not above) 0.05, so the claim predicts success;
but the floating-point evaluation `1f64 - (19f64 / 20f64)` gives
0.050000000000000044, strictly above the `f64` literal 0.05
(≈ 0.05000000000000000278), and the program fails with the threshold
error. -/
theorem C2_counterexample :
    (1 : ℚ) - 19 / 20 ≤ 5 / 100 ∧
    (finalState64 ⟨"AAA", "BBB", 18687, 18712⟩
      (fun _ _ d => if d = 18712 then .error "error" else .ok 1)).expected_days = 20 ∧
    (finalState64 ⟨"AAA", "BBB", 18687, 18712⟩
      (fun _ _ d => if d = 18712 then .error "error" else .ok 1)).retrieved_days = 19 ∧
    exchange_rate_overview64 ⟨"AAA", "BBB", 18687, 18712⟩
      (fun _ _ d => if d = 18712 then .error "error" else .ok 1) = .error thresholdMsg :=
  ⟨by norm_num, by decide, by decide, by decide⟩

/-- C2, amended: for inputs passing validation with at least one business
day and at least one successful lookup, the run fails with the
excessive-failure-rate error exactly when the floating-point value
`1 - retrieved/expected` (every operation rounded to the nearest double) is
strictly greater than the `f64` literal 0.05; when that floating-point
comparison is at or below the literal, the run succeeds. -/
theorem C2_amended_f64_threshold (opt : Opt) (p : ExchangeProvider)
    (hc : ¬ toLowercase opt.currency_from = toLowercase opt.currency_to)
    (hd : opt.date_from ≤ opt.date_to)
    (hE : (finalState64 opt p).expected_days ≠ 0)
    (hR : (finalState64 opt p).retrieved_days ≠ 0) :
    (exchange_rate_overview64 opt p = .error thresholdMsg ↔
      subF64 1 (divF64 (toF64 (finalState64 opt p).retrieved_days)
        (toF64 (finalState64 opt p).expected_days)) >
        ACCEPTABLE_RETRIEVAL_FAILURE_FRACTION64) ∧
    (¬ subF64 1 (divF64 (toF64 (finalState64 opt p).retrieved_days)
        (toF64 (finalState64 opt p).expected_days)) >
        ACCEPTABLE_RETRIEVAL_FAILURE_FRACTION64 →
      ∃ w, exchange_rate_overview64 opt p = .ok w) := by
  have hsome : 0 < (finalState64 opt p).retrieved_days →
      (finalState64 opt p).min_rate.isSome = true ∧
      (finalState64 opt p).max_rate.isSome = true :=
    loopGo64_some_of_retrieved p opt.currency_from opt.currency_to (numDays opt)
      opt.date_from initState (by intro h; simp [initState] at h)
  rw [overview64_valid opt p hc hd]
  rw [if_neg (by push_neg; exact ⟨hE, hR⟩)]
  by_cases hf : subF64 1 (divF64 (toF64 (finalState64 opt p).retrieved_days)
      (toF64 (finalState64 opt p).expected_days)) > ACCEPTABLE_RETRIEVAL_FAILURE_FRACTION64
  · rw [if_pos hf]
    exact ⟨iff_of_true rfl hf, fun hle => absurd hf hle⟩
  · rw [if_neg hf]
    obtain ⟨hmin, hmax⟩ := hsome (Nat.pos_of_ne_zero hR)
    obtain ⟨mn, hmn⟩ := Option.isSome_iff_exists.1 hmin
    obtain ⟨mx, hmx⟩ := Option.isSome_iff_exists.1 hmax
    rw [hmn, hmx]
    exact ⟨iff_of_false (by simp) hf, fun _ => ⟨_, rfl⟩⟩

/-- Witness for the amended C2 at a concrete input: both business days of a
Monday-Tuesday range succeed, the rounded failure fraction is 0 ≤ 0.05, and
the run does not fail with the threshold error and succeeds. -/
theorem C2_amended_witness :
    (exchange_rate_overview64 ⟨"AAA", "BBB", 18687, 18688⟩ (fun _ _ _ => .ok 1) =
        .error thresholdMsg ↔
      subF64 1 (divF64
        (toF64 (finalState64 ⟨"AAA", "BBB", 18687, 18688⟩
          (fun _ _ _ => .ok 1)).retrieved_days)
        (toF64 (finalState64 ⟨"AAA", "BBB", 18687, 18688⟩
          (fun _ _ _ => .ok 1)).expected_days)) >
        ACCEPTABLE_RETRIEVAL_FAILURE_FRACTION64) ∧
    (¬ subF64 1 (divF64
        (toF64 (finalState64 ⟨"AAA", "BBB", 18687, 18688⟩
          (fun _ _ _ => .ok 1)).retrieved_days)
        (toF64 (finalState64 ⟨"AAA", "BBB", 18687, 18688⟩
          (fun _ _ _ => .ok 1)).expected_days)) >
        ACCEPTABLE_RETRIEVAL_FAILURE_FRACTION64 →
      ∃ w, exchange_rate_overview64 ⟨"AAA", "BBB", 18687, 18688⟩
        (fun _ _ _ => .ok 1) = .ok w) :=
  C2_amended_f64_threshold ⟨"AAA", "BBB", 18687, 18688⟩ (fun _ _ _ => .ok 1)
    (by decide) (by decide) (by decide) (by decide)

/-- C10, counterexample to the claim as stated: with the constant provider
returning the double nearest 0.1 over the three business days
2021-03-01..2021-03-03, the program's accumulation (0.1 + 0.1) + 0.1 gives
0.30000000000000004 and dividing by 3 gives mean_rate 0.10000000000000002,
which is not the provider's constant. -/
theorem C10_counterexample :
    exchange_rate_overview64 ⟨"AAA", "BBB", 18687, 18689⟩
      (fun _ _ _ => .ok ((3602879701896397 : ℚ) / 36028797018963968)) =
      .ok ⟨(7205759403792795 : ℚ) / 72057594037927936,
           ((3602879701896397 : ℚ) / 36028797018963968, 18687),
           ((3602879701896397 : ℚ) / 36028797018963968, 18687), none⟩ ∧
    (7205759403792795 : ℚ) / 72057594037927936 ≠
      (3602879701896397 : ℚ) / 36028797018963968 :=
  ⟨by decide, by decide⟩

/-- C10, amended: with an always-succeeding constant provider `v`, every
valid input with at least one business day succeeds with min and max values
`v` (comparisons are exact) and no notice, and the mean is the rounded
quotient of the `n`-fold rounded accumulation of `v` by `n` — which equals
`v` when that accumulation happens to be exact, but not in general. -/
theorem C10_amended_constant_provider (opt : Opt) (v : ℚ)
    (hc : ¬ toLowercase opt.currency_from = toLowercase opt.currency_to)
    (hd : opt.date_from ≤ opt.date_to)
    (hbd : runCallDates opt ≠ []) :
    ∃ w, exchange_rate_overview64 opt (fun _ _ _ => .ok v) = .ok w ∧
      w.min_rate.1 = v ∧ w.max_rate.1 = v ∧ w.notice = none ∧
      w.mean_rate = divF64 (iterAddF64 0 (runCallDates opt).length v)
        (toF64 (runCallDates opt).length) := by
  have hE : (runCallDates opt).length ≠ 0 := fun h0 => hbd (List.length_eq_zero.1 h0)
  have hsam : runSamples opt (fun _ _ _ => .ok v) =
      (runCallDates opt).map (fun d => (v, d)) := runSamples_const opt v
  have hlen : (runSamples opt (fun _ _ _ => .ok v)).length = (runCallDates opt).length := by
    rw [hsam, List.length_map]
  have hnil : runSamples opt (fun _ _ _ => .ok v) ≠ [] := by
    rw [hsam]
    exact fun hcon => hbd (List.map_eq_nil_iff.1 hcon)
  obtain ⟨rmin, hminf, hminmem, -, -⟩ :=
    minFold_spec _ (runSamples_pairwise opt (fun _ _ _ => .ok v)) hnil
  obtain ⟨rmax, hmaxf, hmaxmem, -, -⟩ :=
    maxFold_spec _ (runSamples_pairwise opt (fun _ _ _ => .ok v)) hnil
  have hminv : rmin.1 = v := by
    rw [hsam] at hminmem
    obtain ⟨d, -, hdq⟩ := List.mem_map.1 hminmem
    rw [← hdq]
  have hmaxv : rmax.1 = v := by
    rw [hsam] at hmaxmem
    obtain ⟨d, -, hdq⟩ := List.mem_map.1 hmaxmem
    rw [← hdq]
  have hq_exp : (finalState opt (fun _ _ _ => .ok v)).expected_days =
      (runCallDates opt).length := by rw [finalState_eq]
  have hq_ret : (finalState opt (fun _ _ _ => .ok v)).retrieved_days =
      (runCallDates opt).length := by rw [finalState_eq]; exact hlen
  have hq_min : (finalState opt (fun _ _ _ => .ok v)).min_rate = some rmin := by
    rw [finalState_eq]; exact hminf
  have hq_max : (finalState opt (fun _ _ _ => .ok v)).max_rate = some rmax := by
    rw [finalState_eq]; exact hmaxf
  obtain ⟨he, hr, hm0, hm1⟩ := finalState64_counters opt (fun _ _ _ => .ok v)
  have h64_exp := he.trans hq_exp
  have h64_ret := hr.trans hq_ret
  have h64_min := hm0.trans hq_min
  have h64_max := hm1.trans hq_max
  have h64_sum : (finalState64 opt (fun _ _ _ => .ok v)).rate_sum =
      iterAddF64 0 (runCallDates opt).length v := by
    have hs := loopGo64_sum_const v opt.currency_from opt.currency_to
      (numDays opt) opt.date_from initState
    simpa [finalState64, initState, runCallDates] using hs
  rw [overview64_valid opt (fun _ _ _ => .ok v) hc hd]
  rw [if_neg (by rw [h64_exp, h64_ret]; push_neg; exact ⟨hE, hE⟩)]
  have htest : subF64 1 (divF64
      (toF64 (finalState64 opt (fun _ _ _ => .ok v)).retrieved_days)
      (toF64 (finalState64 opt (fun _ _ _ => .ok v)).expected_days)) = 0 := by
    rw [h64_ret, h64_exp]
    have hT : (0 : ℚ) < toF64 (runCallDates opt).length :=
      toF64_pos _ (Nat.pos_of_ne_zero hE)
    rw [divF64, div_self hT.ne', roundQ_one, subF64, sub_self, roundQ_zero]
  rw [if_neg (by rw [htest]; decide)]
  rw [h64_min, h64_max]
  refine ⟨_, rfl, hminv, hmaxv, ?_, ?_⟩
  · show (if (finalState64 opt (fun _ _ _ => .ok v)).expected_days =
        (finalState64 opt (fun _ _ _ => .ok v)).retrieved_days then none
      else some (noticeMsg _ _)) = none
    rw [h64_exp, h64_ret]
    simp
  · show divF64 (finalState64 opt (fun _ _ _ => .ok v)).rate_sum
      (toF64 (finalState64 opt (fun _ _ _ => .ok v)).retrieved_days) = _
    rw [h64_sum, h64_ret]

/-- Witness for the amended C10 at a concrete input: a Monday-only range
with the constant provider 7 succeeds with min and max values 7, no notice,
and the mean equal to the one-step rounded accumulation divided by 1. -/
theorem C10_amended_witness :
    ∃ w, exchange_rate_overview64 ⟨"AAA", "BBB", 18687, 18687⟩ (fun _ _ _ => .ok 7) =
        .ok w ∧
      w.min_rate.1 = 7 ∧ w.max_rate.1 = 7 ∧ w.notice = none ∧
      w.mean_rate = divF64
        (iterAddF64 0 (runCallDates ⟨"AAA", "BBB", 18687, 18687⟩).length 7)
        (toF64 (runCallDates ⟨"AAA", "BBB", 18687, 18687⟩).length) :=
  C10_amended_constant_provider ⟨"AAA", "BBB", 18687, 18687⟩ 7
    (by decide) (by decide) (by decide)

end ExchangeRates
